import Mathlib

/-
Verification of the positional-indexing core of the automerge-rs excerpt.

The development shallowly embeds the two source files:
  * automerge-frontend/src/state_tree/sequence_tree.rs
    (SequenceTree, SequenceTreeNode, SequenceTreeInner and the operations
    new, len, insert, push_back, get, get_mut, remove, set), and
  * automerge-protocol/src/lib.rs
    (OpId, ActorId, DataType, ScalarValue and ScalarValue::as_datatype with
    its numeric helpers to_i64 / to_u64 / to_f64).

Rust mutation is modelled by explicit state passing: a mutating operation
returns the updated tree.  A panicking branch (the unreachable! arms of
remove and set) is modelled by an Option result, none standing for the
panic; every other operation is total exactly as in the source.  Machine
integers are Nat / Int with explicit wrap-around arithmetic where a Rust
cast can wrap.  Box indirection is erased (it has no semantic content) and
the single-field wrapper struct SequenceTreeNode around SequenceTreeInner
is collapsed into one inductive whose constructors are the two variants of
SequenceTreeInner.
-/

namespace Automerge

/-- ActorId wraps an opaque byte sequence (TinyVec of u8 in the source);
bytes are modelled as Nat values. -/
abbrev ActorId := List Nat

/-- OpId(pub u64, pub ActorId): a per-actor counter paired with the actor
identifier.  The container treats it as an opaque cloneable token. -/
structure OpId where
  counter : Nat
  actor : ActorId
deriving DecidableEq

/-- Combined embedding of SequenceTreeInner and its wrapper struct
SequenceTreeNode: a leaf holds one (OpId, value) pair, an internal node
holds two optional boxed children and a cached subtree length. -/
inductive SequenceTreeNode (α : Type) : Type where
  | leaf (opid : OpId) (element : α)
  | node (left right : Option (SequenceTreeNode α)) (len : Nat)

namespace SequenceTreeNode

/-- SequenceTreeNode::len — 1 for a leaf, the cached field for a node. -/
def len {α : Type} : SequenceTreeNode α → Nat
  | leaf _ _ => 1
  | node _ _ n => n

/-- The expression left.as_ref().map_or(0, |l| l.len()) used throughout the
source to measure an optional child. -/
def optLen {α : Type} : Option (SequenceTreeNode α) → Nat
  | none => 0
  | some l => l.len

/-- SequenceTreeNode::insert.  On a leaf the source replaces the leaf by a
two-child node whose left child is the old leaf and whose right child is
the new element, regardless of the index.  On a node it bumps the cached
len, then descends right when index > left_len (creating a right leaf if
the right child is absent) and left otherwise (creating a left leaf if the
left child is absent). -/
def insert {α : Type} : SequenceTreeNode α → Nat → OpId → α → SequenceTreeNode α
  | leaf oldOpid oldElement, _, opid, element =>
      node (some (leaf oldOpid oldElement)) (some (leaf opid element)) 2
  | node left right n, index, opid, element =>
      let leftLen := optLen left
      if index > leftLen then
        match right with
        | some r => node left (some (r.insert (index - leftLen) opid element)) (n + 1)
        | none => node left (some (leaf opid element)) (n + 1)
      else
        match left with
        | some l => node (some (l.insert index opid element)) right (n + 1)
        | none => node (some (leaf opid element)) right (n + 1)

/-- SequenceTreeNode::remove.  none models the unreachable! panics (remove
called on a leaf, or a descent direction whose child is absent).  On a node
the source decrements the cached len first (saturating here; a Rust debug
build would abort on underflow, equally a non-completion), then descends by
the same comparison as insert; a leaf child in the chosen direction is
detached wholesale and its element returned. -/
def remove {α : Type} : SequenceTreeNode α → Nat → Option (α × SequenceTreeNode α)
  | leaf _ _, _ => none
  | node left right n, index =>
      let leftLen := optLen left
      let n2 := n - 1
      if index > leftLen then
        match right with
        | some rightChild =>
          match rightChild with
          | leaf _ element => some (element, node left none n2)
          | node a b m =>
            match (node a b m : SequenceTreeNode α).remove (index - leftLen) with
            | some (e, rc) => some (e, node left (some rc) n2)
            | none => none
        | none => none
      else
        match left with
        | some leftChild =>
          match leftChild with
          | leaf _ element => some (element, node none right n2)
          | node a b m =>
            match (node a b m : SequenceTreeNode α).remove index with
            | some (e, lc) => some (e, node (some lc) right n2)
            | none => none
        | none => none

/-- SequenceTreeNode::set.  Replaces the value (never the OpId) of the leaf
the descent reaches and returns the previous value; none models the
unreachable!("set on non existant index") panics on an absent child. -/
def set {α : Type} : SequenceTreeNode α → Nat → α → Option (α × SequenceTreeNode α)
  | leaf opid oldElement, _, element => some (oldElement, leaf opid element)
  | node left right n, index, element =>
      let leftLen := optLen left
      if index > leftLen then
        match right with
        | some r =>
          match r.set (index - leftLen) element with
          | some (old, r2) => some (old, node left (some r2) n)
          | none => none
        | none => none
      else
        match left with
        | some l =>
          match l.set index element with
          | some (old, l2) => some (old, node (some l2) right n)
          | none => none
        | none => none

/-- SequenceTreeNode::get.  A leaf answers its pair for any index; a node
descends by the same comparison as insert and answers none on an absent
child.  Read-only in the source (no len cache is touched). -/
def get {α : Type} : SequenceTreeNode α → Nat → Option (OpId × α)
  | leaf opid element, _ => some (opid, element)
  | node left right _, index =>
      let leftLen := optLen left
      if index > leftLen then
        match right with
        | some r => r.get (index - leftLen)
        | none => none
      else
        match left with
        | some l => l.get index
        | none => none

/-- SequenceTreeNode::get_mut, transcribed separately from get: the source
duplicates the descent, returning the OpId by clone and the value by
mutable reference.  As a read it is embedded with the same result type as
get; it performs no structural mutation. -/
def get_mut {α : Type} : SequenceTreeNode α → Nat → Option (OpId × α)
  | leaf opid element, _ => some (opid, element)
  | node left right _, index =>
      let leftLen := optLen left
      if index > leftLen then
        match right with
        | some r => r.get_mut (index - leftLen)
        | none => none
      else
        match left with
        | some l => l.get_mut index
        | none => none

/-- Invariant I1 of the spec as an executable check: at every internal node
the cached len equals the sum of the lengths of the children, an absent
child counting 0. -/
def i1 {α : Type} : SequenceTreeNode α → Bool
  | leaf _ _ => true
  | node l r n =>
      (decide (n = optLen l + optLen r))
        && (match l with | none => true | some t => i1 t)
        && (match r with | none => true | some t => i1 t)

/-- Invariant check I1 for an optional child: an absent child passes. -/
def optI1 {α : Type} : Option (SequenceTreeNode α) → Bool
  | none => true
  | some t => t.i1

/-- Induction principle for the nested inductive: to prove P everywhere it
suffices to prove it on leaves and on nodes assuming it on present
children. -/
def indOn {α : Type} {P : SequenceTreeNode α → Prop}
    (hleaf : ∀ o e, P (leaf o e))
    (hnode : ∀ l r n, (∀ u, l = some u → P u) → (∀ u, r = some u → P u) →
      P (node l r n)) :
    (t : SequenceTreeNode α) → P t
  | leaf o e => hleaf o e
  | node l r n =>
      hnode l r n (fun u _ => indOn hleaf hnode u) (fun u _ => indOn hleaf hnode u)
termination_by t => sizeOf t
decreasing_by
  all_goals (rename_i hu; subst hu; simp; omega)

end SequenceTreeNode

/-- SequenceTree: the facade struct owning the root node. -/
structure SequenceTree (α : Type) where
  root_node : SequenceTreeNode α

namespace SequenceTree

/-- SequenceTree::new — an empty internal node at the root. -/
def new (α : Type) : SequenceTree α :=
  ⟨SequenceTreeNode.node none none 0⟩

/-- SequenceTree::len — the root cached length. -/
def len {α : Type} (t : SequenceTree α) : Nat :=
  t.root_node.len

/-- SequenceTree::insert — forwards to the root node. -/
def insert {α : Type} (t : SequenceTree α) (index : Nat) (opid : OpId) (element : α) :
    SequenceTree α :=
  ⟨t.root_node.insert index opid element⟩

/-- SequenceTree::push_back — insert at the current length. -/
def push_back {α : Type} (t : SequenceTree α) (opid : OpId) (element : α) :
    SequenceTree α :=
  t.insert t.len opid element

/-- SequenceTree::get — forwards to the root node. -/
def get {α : Type} (t : SequenceTree α) (index : Nat) : Option (OpId × α) :=
  t.root_node.get index

/-- SequenceTree::get_mut — forwards to the root node. -/
def get_mut {α : Type} (t : SequenceTree α) (index : Nat) : Option (OpId × α) :=
  t.root_node.get_mut index

/-- SequenceTree::remove — forwards to the root node; none is the panic. -/
def remove {α : Type} (t : SequenceTree α) (index : Nat) : Option (α × SequenceTree α) :=
  match t.root_node.remove index with
  | some (e, r) => some (e, ⟨r⟩)
  | none => none

/-- SequenceTree::set — forwards to the root node; none is the panic. -/
def set {α : Type} (t : SequenceTree α) (index : Nat) (element : α) :
    Option (α × SequenceTree α) :=
  match t.root_node.set index element with
  | some (old, r) => some (old, ⟨r⟩)
  | none => none

/-- Invariant I1 lifted to the facade. -/
def i1 {α : Type} (t : SequenceTree α) : Bool :=
  t.root_node.i1

end SequenceTree

/-- States reachable from the empty container by completed operations that
respect the documented preconditions: insert at a position at most the
length, remove and set at a position below the length (and only when the
call completes rather than panics; a panic aborts the program, so a
panicking call produces no successor state).  push_back is insert at the
length and get / get_mut do not change the state. -/
inductive Reachable {α : Type} : SequenceTree α → Prop where
  | new : Reachable (SequenceTree.new α)
  | insert {t : SequenceTree α} {i : Nat} {opid : OpId} {v : α} :
      Reachable t → i ≤ t.len → Reachable (t.insert i opid v)
  | remove {t t2 : SequenceTree α} {i : Nat} {x : α} :
      Reachable t → i < t.len → t.remove i = some (x, t2) → Reachable t2
  | set {t t2 : SequenceTree α} {i : Nat} {v x : α} :
      Reachable t → i < t.len → t.set i v = some (x, t2) → Reachable t2

/-- DataType: the explicit re-interpretation tag enum of the protocol
crate, in source declaration order. -/
inductive DataType : Type where
  | counter
  | timestamp
  | bytes
  | cursor
  | uint
  | int
  | f64
  | undefined
deriving DecidableEq

/-- Abstract model of the f64 payload and the four Rust casts between f64
and the integer types that the numeric coercions use.  Floating point is
not re-axiomatised; the development is parametric in F and these casts, so
nothing proved below assumes any particular float semantics. -/
structure F64Ops (F : Type) where
  f64ToI64 : F → Int
  f64ToU64 : F → Nat
  i64ToF64 : Int → F
  u64ToF64 : Nat → F

/-- Largest i64 value; i64::try_from on a u64 succeeds exactly up to it. -/
def i64Max : Nat := 2 ^ 63 - 1

/-- The Rust cast of a u64 value as i64: wrap around 2^64 into the signed
range. -/
def u64AsI64 (u : Nat) : Int :=
  if u < 2 ^ 63 then (u : Int) else (u : Int) - 2 ^ 64

/-- The Rust cast of an i64 value as u64: wrap modulo 2^64. -/
def i64AsU64 (i : Int) : Nat :=
  (i % (2 ^ 64 : Int)).toNat

/-- ScalarValue: the tagged union of the protocol crate, parametric in the
f64 payload type F; u8 and the integer payloads are Nat / Int values. -/
inductive ScalarValue (F : Type) : Type where
  | bytes (b : List Nat)
  | str (s : String)
  | int (i : Int)
  | uint (u : Nat)
  | f64 (f : F)
  | counter (i : Int)
  | timestamp (i : Int)
  | cursor (o : OpId)
  | boolean (b : Bool)
  | null

/-- The record error::InvalidScalarValue produced by as_datatype. -/
structure InvalidScalarValue (F : Type) where
  raw_value : ScalarValue F
  expected : String
  unexpected : String
  datatype : DataType

namespace ScalarValue

/-- ScalarValue::to_i64: the lossy-permitted coercion of a numeric variant
to i64. -/
def to_i64 {F : Type} (ops : F64Ops F) : ScalarValue F → Option Int
  | int n => some n
  | uint n => some (u64AsI64 n)
  | f64 n => some (ops.f64ToI64 n)
  | counter n => some n
  | timestamp n => some n
  | _ => none

/-- ScalarValue::to_u64. -/
def to_u64 {F : Type} (ops : F64Ops F) : ScalarValue F → Option Nat
  | int n => some (i64AsU64 n)
  | uint n => some n
  | f64 n => some (ops.f64ToU64 n)
  | counter n => some (i64AsU64 n)
  | timestamp n => some (i64AsU64 n)
  | _ => none

/-- ScalarValue::to_f64. -/
def to_f64 {F : Type} (ops : F64Ops F) : ScalarValue F → Option F
  | int n => some (ops.i64ToF64 n)
  | uint n => some (ops.u64ToF64 n)
  | f64 n => some n
  | counter n => some (ops.i64ToF64 n)
  | timestamp n => some (ops.i64ToF64 n)
  | _ => none

/-- ScalarValue::as_datatype.  The source fills the diagnostic field of
the error with self.to_string(), a Display implementation outside the
excerpt; the embedding is parametric in that rendering function sh, so
nothing proved below depends on it.  The match arms are transcribed in
source order; Lean gives the same first-match semantics. -/
def as_datatype {F : Type} (ops : F64Ops F) (sh : ScalarValue F → String)
    (v : ScalarValue F) (datatype : DataType) :
    Except (InvalidScalarValue F) (ScalarValue F) :=
  match datatype, v with
  | DataType.counter, int i => Except.ok (counter i)
  | DataType.counter, uint u =>
      if u ≤ i64Max then Except.ok (counter (u : Int))
      else Except.error
        ⟨uint u, "an integer", "an integer larger than i64::max_value", DataType.counter⟩
  | DataType.bytes, bytes b => Except.ok (bytes b)
  | DataType.bytes, w => Except.error ⟨w, "a vector of bytes", sh w, DataType.bytes⟩
  | DataType.counter, w => Except.error ⟨w, "an integer", sh w, DataType.counter⟩
  | DataType.timestamp, int i => Except.ok (timestamp i)
  | DataType.timestamp, uint u =>
      if u ≤ i64Max then Except.ok (timestamp (u : Int))
      else Except.error
        ⟨uint u, "an integer", "an integer larger than i64::max_value", DataType.timestamp⟩
  | DataType.timestamp, w => Except.error ⟨w, "an integer", sh w, DataType.timestamp⟩
  | DataType.cursor, w => Except.error ⟨w, "a cursor", sh w, DataType.cursor⟩
  | DataType.int, w =>
      match w.to_i64 ops with
      | some i => Except.ok (int i)
      | none => Except.error ⟨w, "an int", sh w, DataType.int⟩
  | DataType.uint, w =>
      match w.to_u64 ops with
      | some u => Except.ok (uint u)
      | none => Except.error ⟨w, "a uint", sh w, DataType.uint⟩
  | DataType.f64, w =>
      match w.to_f64 ops with
      | some f => Except.ok (f64 f)
      | none => Except.error ⟨w, "an f64", sh w, DataType.f64⟩
  | DataType.undefined, _ => Except.ok v

end ScalarValue

/-- Bool test whether an Except result is a success. -/
def exceptIsOk {ε β : Type} : Except ε β → Bool
  | Except.ok _ => true
  | Except.error _ => false

/-- Trivial f64 operations over the one-point payload type Unit, used only
in the concrete evaluation theorems. -/
def f64OpsUnit : F64Ops Unit := ⟨fun _ => 0, fun _ => 0, fun _ => (), fun _ => ()⟩

/-- Trivial rendering function used only in the concrete evaluations. -/
def showUnit : ScalarValue Unit → String := fun _ => ""

/-- Concrete operation identifier used in the evaluation theorems. -/
def opId1 : OpId := ⟨1, [0]⟩

/-- Second concrete operation identifier. -/
def opId2 : OpId := ⟨2, [0]⟩

/-- One push_back on the empty container. -/
def exTree1 : SequenceTree Nat :=
  (SequenceTree.new Nat).push_back opId1 10

/-- Two push_back calls on the empty container. -/
def exTree2 : SequenceTree Nat :=
  ((SequenceTree.new Nat).push_back opId1 10).push_back opId2 20

/-- The state remove(0) leaves exTree2 in: the leaf of opId1 was detached,
the surviving element sits in the right child of a left child whose left
child is absent. -/
def exTree3 : SequenceTree Nat :=
  ⟨SequenceTreeNode.node
    (some (SequenceTreeNode.node none (some (SequenceTreeNode.leaf opId2 20)) 1))
    none 1⟩

/-- Two insert calls at position 0 on the empty container. -/
def exFront : SequenceTree Nat :=
  ((SequenceTree.new Nat).insert 0 opId1 10).insert 0 opId2 20

/-- The state set(1, 99) leaves exTree1 in. -/
def exTree1Set : SequenceTree Nat :=
  ⟨SequenceTreeNode.node (some (SequenceTreeNode.leaf opId1 99)) none 1⟩

/-- exTree1 is reachable: one precondition-respecting push_back. -/
theorem reachable_exTree1 : Reachable exTree1 :=
  Reachable.insert Reachable.new (by decide)

/-- exTree2 is reachable: two precondition-respecting push_back calls. -/
theorem reachable_exTree2 : Reachable exTree2 :=
  Reachable.insert reachable_exTree1 (by decide)

/-- exTree3 is reachable: it is what remove(0) leaves of exTree2, and that
remove respects the precondition 0 < len = 2 and completes, returning 10. -/
theorem reachable_exTree3 : Reachable exTree3 := by
  have h : exTree2.remove 0 = some (10, exTree3) := rfl
  exact Reachable.remove reachable_exTree2 (by decide) h

/-- C1: the claim states that remove never reaches a fatal unreachable
branch on a reachable container when position < length.  The code violates
this: exTree3 is reachable (push_back 10, push_back 20, remove 0, each
respecting its precondition), has length 1, yet remove(0) descends left
into an absent child and hits unreachable!("no left child") — modelled as
the none result. -/
theorem c1_remove_hits_unreachable_on_reachable_state :
    Reachable exTree3 ∧ exTree3.len = 1 ∧ exTree3.remove 0 = none :=
  ⟨reachable_exTree3, rfl, rfl⟩

/-- C2: the claim states that get and get_mut return none whenever
position ≥ length.  The code violates this: after a single push_back the
length is 1, yet get(1) and get_mut(1) both return the stored element,
because a leaf answers its pair for any residual index and the descent
comparison index > left_len sends index = left_len into the left subtree. -/
theorem c2_get_at_length_returns_element :
    exTree1.len = 1 ∧ exTree1.get 1 = some (opId1, 10)
      ∧ exTree1.get_mut 1 = some (opId1, 10) :=
  ⟨rfl, rfl, rfl⟩

/-- C3: the claim states that after push_back of opId1, opId2 (values 10,
20), get(i) returns the i-th inserted pair.  The code violates this at
i = 1: get(1) returns (opId1, 10), the element inserted first, because the
descent comparison index > left_len is off by one; the second element is
found at get(2) instead. -/
theorem c3_push_back_readback_is_shifted :
    exTree2.len = 2 ∧ exTree2.get 0 = some (opId1, 10)
      ∧ exTree2.get 1 = some (opId1, 10) ∧ exTree2.get 2 = some (opId2, 20) :=
  ⟨rfl, rfl, rfl, rfl⟩

/-- C4: the claim states that inserting opId1 then opId2 always at
position 0 yields reverse insertion order, get(0) returning opId2.  The
code violates this: the leaf split ignores the insertion position and
always places the pre-existing element on the left and the incoming one on
the right, so get(0) still returns (opId1, 10) and the element inserted at
position 0 ends up last (at get(2)). -/
theorem c4_insert_at_front_lands_last :
    exFront.len = 2 ∧ exFront.get 0 = some (opId1, 10)
      ∧ exFront.get 1 = some (opId1, 10) ∧ exFront.get 2 = some (opId2, 20) :=
  ⟨rfl, rfl, rfl, rfl⟩

/-- C5: the claim states that for every i < length, remove(i) returns the
value get(i) returned just before and the length then drops by one.  The
code violates this on the reachable state exTree3: 0 < length = 1, yet
get(0) is already absent (the leftmost descent dead-ends in a missing left
child) and remove(0) panics instead of returning a value, so nothing is
removed and the length does not drop. -/
theorem c5_remove_get_consistency_fails :
    Reachable exTree3 ∧ 0 < exTree3.len ∧ exTree3.get 0 = none
      ∧ exTree3.remove 0 = none :=
  ⟨reachable_exTree3, by decide, rfl, rfl⟩

namespace SequenceTreeNode

/-- optLen computes to 0 on an absent child. -/
theorem optLen_none {α : Type} : optLen (none : Option (SequenceTreeNode α)) = 0 := rfl

/-- optLen computes to the length of a present child. -/
theorem optLen_some {α : Type} (t : SequenceTreeNode α) : optLen (some t) = t.len := rfl

/-- Unfolding of the executable invariant I1 at an internal node. -/
theorem i1_node_iff {α : Type} (l r : Option (SequenceTreeNode α)) (n : Nat) :
    (node l r n).i1 = true ↔
      (n = optLen l + optLen r ∧ optI1 l = true ∧ optI1 r = true) := by
  cases l <;> cases r <;> simp [i1, optI1, and_assoc]

/-- insert grows the length cache of the node it is called on by one. -/
theorem insert_len {α : Type} (t : SequenceTreeNode α) (i : Nat) (o : OpId) (v : α) :
    (t.insert i o v).len = t.len + 1 := by
  cases t with
  | leaf o2 e2 => rfl
  | node l r n =>
      rw [insert.eq_def]
      dsimp only
      by_cases hgt : i > optLen l
      · rw [if_pos hgt]
        cases r <;> rfl
      · rw [if_neg hgt]
        cases l <;> rfl

/-- insert preserves I1; no precondition is needed, since the fresh leaf is
accounted for by the cache increment at every node on the descent path. -/
theorem insert_i1 {α : Type} (t : SequenceTreeNode α) :
    ∀ (i : Nat) (o : OpId) (v : α), t.i1 = true → (t.insert i o v).i1 = true := by
  induction t using indOn with
  | hleaf o2 e2 => intro i o v _; rfl
  | hnode l r n ihl ihr =>
      intro i o v hi
      rw [i1_node_iff] at hi
      obtain ⟨hn, hil, hir⟩ := hi
      rw [insert.eq_def]
      dsimp only
      by_cases hgt : i > optLen l
      · rw [if_pos hgt]
        cases r with
        | none =>
            rw [i1_node_iff]
            refine ⟨?_, hil, rfl⟩
            simp only [optLen_none] at hn
            simp [optLen_some, len]
            omega
        | some rc =>
            rw [i1_node_iff]
            refine ⟨?_, hil, ?_⟩
            · simp only [optLen_some] at hn
              simp [optLen_some, insert_len]
              omega
            · simp only [optI1] at hir ⊢
              exact ihr rc rfl _ _ _ hir
      · rw [if_neg hgt]
        cases l with
        | none =>
            rw [i1_node_iff]
            refine ⟨?_, rfl, hir⟩
            simp only [optLen_none] at hn
            simp [optLen_some, len]
            omega
        | some lc =>
            rw [i1_node_iff]
            refine ⟨?_, ?_, hir⟩
            · simp only [optLen_some] at hn
              simp [optLen_some, insert_len]
              omega
            · simp only [optI1] at hil ⊢
              exact ihl lc rfl _ _ _ hil

/-- A completed remove shrinks the length cache of the node it is called on
by one. -/
theorem remove_len {α : Type} (t : SequenceTreeNode α) (i : Nat) (x : α)
    (t2 : SequenceTreeNode α) (h : t.remove i = some (x, t2)) :
    t2.len = t.len - 1 := by
  cases t with
  | leaf o e => simp [remove] at h
  | node l r n =>
      rw [remove.eq_def] at h
      dsimp only at h
      repeat' split at h
      all_goals
        first
        | (simp only [Option.some.injEq, Prod.mk.injEq] at h
           obtain ⟨hx, ht2⟩ := h
           subst ht2
           rfl)
        | simp at h

/-- A completed remove preserves I1, and under I1 the node it was called on
counted at least one element. -/
theorem remove_i1 {α : Type} (t : SequenceTreeNode α) :
    ∀ (i : Nat) (x : α) (t2 : SequenceTreeNode α),
      t.remove i = some (x, t2) → t.i1 = true → t2.i1 = true ∧ 1 ≤ t.len := by
  induction t using indOn with
  | hleaf o e => intro i x t2 h _; simp [remove] at h
  | hnode l r n ihl ihr =>
      intro i x t2 h hi
      rw [i1_node_iff] at hi
      obtain ⟨hn, hil, hir⟩ := hi
      rw [remove.eq_def] at h
      dsimp only at h
      split at h
      · cases r with
        | none => simp at h
        | some rc =>
            cases rc with
            | leaf o2 e2 =>
                simp only [Option.some.injEq, Prod.mk.injEq] at h
                obtain ⟨hx, ht2⟩ := h
                subst ht2
                simp only [optLen_some, len] at hn
                constructor
                · rw [i1_node_iff]
                  refine ⟨?_, hil, rfl⟩
                  simp [optLen_none]
                  omega
                · simp [len]; omega
            | node a b m =>
                dsimp only at h
                cases hrec : (node a b m : SequenceTreeNode α).remove (i - optLen l) with
                | none => rw [hrec] at h; simp at h
                | some p =>
                    obtain ⟨e, rc2⟩ := p
                    rw [hrec] at h
                    dsimp only at h
                    simp only [Option.some.injEq, Prod.mk.injEq] at h
                    obtain ⟨hx, ht2⟩ := h
                    subst ht2
                    simp only [optI1] at hir
                    obtain ⟨hrc2, hm⟩ := ihr _ rfl _ _ _ hrec hir
                    have hlen2 := remove_len _ _ _ _ hrec
                    simp only [optLen_some, len] at hn hlen2 hm
                    constructor
                    · rw [i1_node_iff]
                      refine ⟨?_, hil, ?_⟩
                      · simp [optLen_some, hlen2, len]
                        omega
                      · simp only [optI1]; exact hrc2
                    · simp [len]; omega
      · cases l with
        | none => simp at h
        | some lc =>
            cases lc with
            | leaf o2 e2 =>
                simp only [Option.some.injEq, Prod.mk.injEq] at h
                obtain ⟨hx, ht2⟩ := h
                subst ht2
                simp only [optLen_some, len] at hn
                constructor
                · rw [i1_node_iff]
                  refine ⟨?_, rfl, hir⟩
                  simp [optLen_none]
                  omega
                · simp [len]; omega
            | node a b m =>
                dsimp only at h
                cases hrec : (node a b m : SequenceTreeNode α).remove i with
                | none => rw [hrec] at h; simp at h
                | some p =>
                    obtain ⟨e, lc2⟩ := p
                    rw [hrec] at h
                    dsimp only at h
                    simp only [Option.some.injEq, Prod.mk.injEq] at h
                    obtain ⟨hx, ht2⟩ := h
                    subst ht2
                    simp only [optI1] at hil
                    obtain ⟨hlc2, hm⟩ := ihl _ rfl _ _ _ hrec hil
                    have hlen2 := remove_len _ _ _ _ hrec
                    simp only [optLen_some, len] at hn hlen2 hm
                    constructor
                    · rw [i1_node_iff]
                      refine ⟨?_, ?_, hir⟩
                      · simp [optLen_some, hlen2, len]
                        omega
                      · simp only [optI1]; exact hlc2
                    · simp [len]; omega

/-- A completed set preserves the length cache and I1: it only swaps the
value stored at one leaf. -/
theorem set_some {α : Type} (t : SequenceTreeNode α) :
    ∀ (i : Nat) (v x : α) (t2 : SequenceTreeNode α),
      t.set i v = some (x, t2) →
      t2.len = t.len ∧ (t.i1 = true → t2.i1 = true) := by
  induction t using indOn with
  | hleaf o e =>
      intro i v x t2 h
      simp only [set, Option.some.injEq, Prod.mk.injEq] at h
      obtain ⟨hx, ht2⟩ := h
      subst ht2
      exact ⟨rfl, fun _ => rfl⟩
  | hnode l r n ihl ihr =>
      intro i v x t2 h
      rw [set.eq_def] at h
      dsimp only at h
      split at h
      · cases r with
        | none => simp at h
        | some rc =>
            dsimp only at h
            cases hrec : rc.set (i - optLen l) v with
            | none => rw [hrec] at h; simp at h
            | some p =>
                obtain ⟨old, rc2⟩ := p
                rw [hrec] at h
                dsimp only at h
                simp only [Option.some.injEq, Prod.mk.injEq] at h
                obtain ⟨hx, ht2⟩ := h
                subst ht2
                obtain ⟨hlen, hi1⟩ := ihr rc rfl _ _ _ _ hrec
                refine ⟨by simp [len], ?_⟩
                intro hi
                rw [i1_node_iff] at hi ⊢
                obtain ⟨hn, hil, hir⟩ := hi
                simp only [optI1] at hir
                refine ⟨?_, hil, ?_⟩
                · simp only [optLen_some] at hn ⊢
                  omega
                · simp only [optI1]; exact hi1 hir
      · cases l with
        | none => simp at h
        | some lc =>
            dsimp only at h
            cases hrec : lc.set i v with
            | none => rw [hrec] at h; simp at h
            | some p =>
                obtain ⟨old, lc2⟩ := p
                rw [hrec] at h
                dsimp only at h
                simp only [Option.some.injEq, Prod.mk.injEq] at h
                obtain ⟨hx, ht2⟩ := h
                subst ht2
                obtain ⟨hlen, hi1⟩ := ihl lc rfl _ _ _ _ hrec
                refine ⟨by simp [len], ?_⟩
                intro hi
                rw [i1_node_iff] at hi ⊢
                obtain ⟨hn, hil, hir⟩ := hi
                simp only [optI1] at hil
                refine ⟨?_, ?_, hir⟩
                · simp only [optLen_some] at hn ⊢
                  omega
                · simp only [optI1]; exact hi1 hil

/-- Whenever get answers a pair, set at the same index completes, returns
the value get answered, and a subsequent get answers the new value under
the unchanged OpId: the two walks reach the same leaf. -/
theorem get_set_roundtrip {α : Type} (t : SequenceTreeNode α) :
    ∀ (i : Nat) (v w : α) (opid : OpId),
      t.get i = some (opid, w) →
      ∃ t2, t.set i v = some (w, t2) ∧ t2.get i = some (opid, v) := by
  induction t using indOn with
  | hleaf o e =>
      intro i v w opid h
      simp only [get, Option.some.injEq, Prod.mk.injEq] at h
      obtain ⟨ho, hw⟩ := h
      subst ho
      subst hw
      exact ⟨leaf o v, rfl, rfl⟩
  | hnode l r n ihl ihr =>
      intro i v w opid h
      rw [get.eq_def] at h
      dsimp only at h
      by_cases hgt : i > optLen l
      · rw [if_pos hgt] at h
        cases r with
        | none => simp at h
        | some rc =>
            obtain ⟨rc2, hset, hget⟩ := ihr rc rfl (i - optLen l) v w opid h
            refine ⟨node l (some rc2) n, ?_, ?_⟩
            · rw [set.eq_def]
              dsimp only
              rw [if_pos hgt, hset]
            · rw [get.eq_def]
              dsimp only
              rw [if_pos hgt]
              exact hget
      · rw [if_neg hgt] at h
        cases l with
        | none => simp at h
        | some lc =>
            obtain ⟨lc2, hset, hget⟩ := ihl lc rfl i v w opid h
            have hlen := (set_some lc i v w lc2 hset).1
            have hcond : ¬ (i > optLen (some lc2)) := by
              simpa [optLen_some, hlen] using hgt
            refine ⟨node (some lc2) r n, ?_, ?_⟩
            · rw [set.eq_def]
              dsimp only
              rw [if_neg hgt, hset]
            · rw [get.eq_def]
              dsimp only
              rw [if_neg hcond]
              exact hget

/-- get_mut walks exactly as get and answers the same pair. -/
theorem get_mut_eq_get_node {α : Type} (t : SequenceTreeNode α) :
    ∀ i : Nat, t.get_mut i = t.get i := by
  induction t using indOn with
  | hleaf o e => intro i; rfl
  | hnode l r n ihl ihr =>
      intro i
      rw [get_mut.eq_def, get.eq_def]
      dsimp only
      by_cases hgt : i > optLen l
      · rw [if_pos hgt, if_pos hgt]
        cases r with
        | none => rfl
        | some rc => exact ihr rc rfl _
      · rw [if_neg hgt, if_neg hgt]
        cases l with
        | none => rfl
        | some lc => exact ihl lc rfl _

end SequenceTreeNode

/-- A completed facade remove is a completed root-node remove. -/
theorem remove_facade {α : Type} (t : SequenceTree α) (i : Nat) (x : α)
    (t2 : SequenceTree α) (h : t.remove i = some (x, t2)) :
    t.root_node.remove i = some (x, t2.root_node) := by
  unfold SequenceTree.remove at h
  revert h
  cases hrec : t.root_node.remove i with
  | none => intro h; simp at h
  | some p =>
      obtain ⟨e, rt⟩ := p
      intro h
      simp only [Option.some.injEq, Prod.mk.injEq] at h
      obtain ⟨hx, ht2⟩ := h
      subst hx
      subst ht2
      rfl

/-- A completed facade set is a completed root-node set. -/
theorem set_facade {α : Type} (t : SequenceTree α) (i : Nat) (v x : α)
    (t2 : SequenceTree α) (h : t.set i v = some (x, t2)) :
    t.root_node.set i v = some (x, t2.root_node) := by
  unfold SequenceTree.set at h
  revert h
  cases hrec : t.root_node.set i v with
  | none => intro h; simp at h
  | some p =>
      obtain ⟨e, rt⟩ := p
      intro h
      simp only [Option.some.injEq, Prod.mk.injEq] at h
      obtain ⟨hx, ht2⟩ := h
      subst hx
      subst ht2
      rfl

/-- Every reachable container satisfies I1. -/
theorem reachable_i1 {α : Type} (t : SequenceTree α) (h : Reachable t) :
    t.i1 = true := by
  induction h with
  | new => rfl
  | insert h2 hle ih =>
      exact SequenceTreeNode.insert_i1 _ _ _ _ ih
  | remove h2 hlt heq ih =>
      exact (SequenceTreeNode.remove_i1 _ _ _ _ (remove_facade _ _ _ _ heq) ih).1
  | set h2 hlt heq ih =>
      exact ((SequenceTreeNode.set_some _ _ _ _ _ (set_facade _ _ _ _ _ heq)).2 ih)

/-- C8: the claim states that set(position, v) with position ≥ length is a
fatal contract violation and never silently replaces a value.  The code
violates this at position = length: after one push_back (length 1),
set(1, 99) completes, silently overwrites the value of the element at
position 0 and returns the previous value 10; only positions strictly
beyond the length panic (set(2, 99) is the modelled panic none). -/
theorem c8_set_at_length_silently_replaces :
    exTree1.len = 1 ∧ exTree1.set 1 99 = some (10, exTree1Set)
      ∧ exTree1Set.get 1 = some (opId1, 99) ∧ exTree1.set 2 99 = none :=
  ⟨rfl, rfl, rfl, rfl⟩

/-- C6 counterexample: the claim quantifies over every container and every
i < length(), but on the reachable container exTree3 (push_back 10,
push_back 20, remove 0) the position 0 is below the length 1 and set(0, 99)
hits unreachable!("set on non existant index") — the none result — instead
of returning the previous value. -/
theorem c6_set_panics_below_length :
    Reachable exTree3 ∧ 0 < exTree3.len ∧ exTree3.set 0 99 = none :=
  ⟨reachable_exTree3, by decide, rfl⟩

/-- C6 amended: whenever get(i) answers a pair (opid, w) — equivalently,
whenever the descent reaches a leaf — set(i, v) completes, returns w, and a
subsequent get(i) answers (opid, v): set replaces only the value and never
the OpId.  The precondition i < length() of the original claim is not
enough, because set can panic on degenerate reachable shapes (see the
counterexample); conditioning on get answering is the minimal repair. -/
theorem c6_set_roundtrip_when_get_answers (α : Type) (t : SequenceTree α)
    (i : Nat) (v w : α) (opid : OpId) (h : t.get i = some (opid, w)) :
    ∃ t2 : SequenceTree α, t.set i v = some (w, t2) ∧ t2.get i = some (opid, v) := by
  obtain ⟨rt2, hset, hget⟩ :=
    SequenceTreeNode.get_set_roundtrip t.root_node i v w opid h
  refine ⟨⟨rt2⟩, ?_, hget⟩
  unfold SequenceTree.set
  rw [hset]

/-- Witness: the amended C6 theorem applied to the one-element container,
with every hypothesis discharged by evaluation. -/
theorem c6_set_roundtrip_witness :
    exTree1.get 0 = some (opId1, 10)
      ∧ ∃ t2 : SequenceTree Nat, exTree1.set 0 99 = some (10, t2)
          ∧ t2.get 0 = some (opId1, 99) :=
  ⟨rfl, c6_set_roundtrip_when_get_answers Nat exTree1 0 99 10 opId1 rfl⟩

/-- C7: invariant I1 — every internal node caches the sum of the lengths of
its children — holds in every reachable state; the empty container
satisfies it, and every completed insert, remove and set performed under
its precondition preserves it.  get and get_mut read through references
only and touch no len cache (they are embedded as pure functions of the
tree), so they preserve every invariant trivially. -/
theorem c7_i1_invariant_preserved :
    (∀ (α : Type) (t : SequenceTree α), Reachable t → t.i1 = true)
    ∧ (∀ α : Type, (SequenceTree.new α).i1 = true)
    ∧ (∀ (α : Type) (t : SequenceTree α) (i : Nat) (o : OpId) (v : α),
        i ≤ t.len → t.i1 = true → (t.insert i o v).i1 = true)
    ∧ (∀ (α : Type) (t t2 : SequenceTree α) (i : Nat) (x : α),
        i < t.len → t.i1 = true → t.remove i = some (x, t2) → t2.i1 = true)
    ∧ (∀ (α : Type) (t t2 : SequenceTree α) (i : Nat) (v x : α),
        i < t.len → t.i1 = true → t.set i v = some (x, t2) → t2.i1 = true) := by
  refine ⟨fun α t h => reachable_i1 t h, fun α => rfl, ?_, ?_, ?_⟩
  · intro α t i o v _ hi
    exact SequenceTreeNode.insert_i1 _ _ _ _ hi
  · intro α t t2 i x _ hi h
    exact (SequenceTreeNode.remove_i1 _ _ _ _ (remove_facade _ _ _ _ h) hi).1
  · intro α t t2 i v x _ hi h
    exact (SequenceTreeNode.set_some _ _ _ _ _ (set_facade _ _ _ _ _ h)).2 hi

/-- Witness: the C7 conjuncts applied at concrete containers, every
hypothesis discharged by evaluation. -/
theorem c7_i1_invariant_witness :
    exTree2.i1 = true ∧ (SequenceTree.new Nat).i1 = true
      ∧ (exTree1.insert 1 opId2 5).i1 = true ∧ exTree3.i1 = true
      ∧ exTree1Set.i1 = true :=
  ⟨c7_i1_invariant_preserved.1 Nat exTree2 reachable_exTree2,
   c7_i1_invariant_preserved.2.1 Nat,
   c7_i1_invariant_preserved.2.2.1 Nat exTree1 1 opId2 5 (by decide) rfl,
   c7_i1_invariant_preserved.2.2.2.1 Nat exTree2 exTree3 0 10 (by decide) rfl rfl,
   c7_i1_invariant_preserved.2.2.2.2 Nat exTree1 exTree1Set 0 99 10 (by decide) rfl rfl⟩

/-- C9 counterexample: the claim states that as_datatype(Cursor) succeeds
exactly on the Cursor variant, but in the source the (Cursor, v) arm is an
error for every v and no success arm for Cursor exists, so the coercion
fails even on a Cursor input. -/
theorem c9_cursor_on_cursor_fails :
    exceptIsOk
      ((ScalarValue.cursor opId1 : ScalarValue Unit).as_datatype f64OpsUnit
        showUnit DataType.cursor) = false := rfl

/-- C9 amended: as_datatype(Bytes) succeeds exactly on the Bytes variant,
returning the same bytes, and as_datatype(Cursor) fails on every variant,
Cursor included.  Parametric in the f64 payload type and the rendering
function, so the statement assumes nothing about float semantics. -/
theorem c9_bytes_exact_cursor_never (F : Type) (ops : F64Ops F)
    (sh : ScalarValue F → String) (v : ScalarValue F) :
    (exceptIsOk (v.as_datatype ops sh DataType.bytes) = true
        ↔ ∃ b, v = ScalarValue.bytes b)
    ∧ (∀ b : List Nat,
        (ScalarValue.bytes b : ScalarValue F).as_datatype ops sh DataType.bytes
          = Except.ok (ScalarValue.bytes b))
    ∧ exceptIsOk (v.as_datatype ops sh DataType.cursor) = false := by
  refine ⟨?_, fun b => rfl, ?_⟩
  · cases v <;> simp [ScalarValue.as_datatype, exceptIsOk]
  · cases v <;> rfl

/-- C10: get_mut answers exactly what get answers on every container and
every index — same presence, same OpId, same value — so the mutable and
immutable lookups are equivalent as read operations; neither mutates the
tree (both are embedded as pure functions, as the source only reads
through the returned references). -/
theorem c10_get_mut_equals_get (α : Type) (t : SequenceTree α) (i : Nat) :
    t.get_mut i = t.get i :=
  SequenceTreeNode.get_mut_eq_get_node t.root_node i

end Automerge
